import Mathlib

/-!
# Verification of the mind-map layout engine (`src/components/MindMap.jsx`)

A shallow embedding of the core pipeline of the mind-map component:
tree normalization (`normalizeTree`), expandable-id collection
(`collectExpandableIds`), visibility reduction (`buildVisibleTree`),
greedy text wrapping (`wrapText`), the layout pass (box sizing, bounds
computation, shifting, link endpoints), and the expand/collapse toggle.

JavaScript numbers are modelled by `ℚ` (all layout arithmetic in the
source is exact on the inputs we consider; comparisons and affine
arithmetic are what matters).  Pixel text measurement, which the source
delegates to a `canvas` 2d context (`measureText`), is an explicit
function parameter `measure : String → ℚ`; the source's non-DOM fallback
(`if (typeof document === 'undefined') return 100`) is `defaultMeasure`.

The tidy-tree positioning itself is performed by the external
`d3-hierarchy` `tree()` layout, which is not part of this repository;
it is modelled from the spec (see `placeNode`).  Everything else is
translated directly from the source.
-/

namespace MindMap

/- Canonical tree node (`{ id, label, children }` as produced by
`normalizeTree`).  A mutual inductive is used so that all traversals are
structurally recursive (and hence evaluable by the kernel). -/
mutual
inductive TNode where
  | mk (id : String) (label : String) (children : TList)
inductive TList where
  | nil
  | cons (t : TNode) (ts : TList)
end

def TNode.id : TNode → String
  | .mk i _ _ => i

def TNode.label : TNode → String
  | .mk _ l _ => l

def TNode.children : TNode → TList
  | .mk _ _ cs => cs

/- Decidable equality for canonical trees (structural). -/
mutual
def TNode.decEq : (a b : TNode) → Decidable (a = b)
  | .mk i l cs, .mk i' l' cs' =>
    match String.decEq i i' with
    | isFalse h => isFalse (by intro hc; cases hc; exact h rfl)
    | isTrue h1 =>
      match String.decEq l l' with
      | isFalse h => isFalse (by intro hc; cases hc; exact h rfl)
      | isTrue h2 =>
        match TList.decEq cs cs' with
        | isFalse h => isFalse (by intro hc; cases hc; exact h rfl)
        | isTrue h3 => isTrue (by rw [h1, h2, h3])
def TList.decEq : (a b : TList) → Decidable (a = b)
  | .nil, .nil => isTrue rfl
  | .nil, .cons _ _ => isFalse (by intro h; cases h)
  | .cons _ _, .nil => isFalse (by intro h; cases h)
  | .cons t ts, .cons t' ts' =>
    match TNode.decEq t t', TList.decEq ts ts' with
    | isTrue h1, isTrue h2 => isTrue (by rw [h1, h2])
    | isFalse h, _ => isFalse (by intro hc; cases hc; exact h rfl)
    | _, isFalse h => isFalse (by intro hc; cases hc; exact h rfl)
end

instance : DecidableEq TNode := TNode.decEq

instance : DecidableEq TList := TList.decEq

/- All node ids of a canonical tree, in depth-first (pre-order) order. -/
mutual
def treeIds : TNode → List String
  | .mk i _ cs => i :: treeIdsL cs
def treeIdsL : TList → List String
  | .nil => []
  | .cons t ts => treeIds t ++ treeIdsL ts
end

/- Raw, loosely structured input (`arbitrary JSON`): either a
non-object-like value (`null`, modelling JS `null`/`undefined`) or an
object with optional `id`, `label`, `name` and `children` fields
(`children = noArray` models a missing or non-array `children` field,
`arr` an actual array). -/
mutual
inductive Raw where
  | null
  | obj (id : Option String) (label : Option String) (nm : Option String)
        (children : RChildren)
inductive RChildren where
  | noArray
  | arr (cs : RList)
inductive RList where
  | nil
  | cons (r : Raw) (rs : RList)
end

/- The explicitly supplied ids of a raw input tree, in traversal order. -/
mutual
def explicitIds : Raw → List String
  | .null => []
  | .obj i _ _ cs => i.toList ++ explicitIdsC cs
def explicitIdsC : RChildren → List String
  | .noArray => []
  | .arr cs => explicitIdsL cs
def explicitIdsL : RList → List String
  | .nil => []
  | .cons r rs => explicitIds r ++ explicitIdsL rs
end

/-- The synthesized fallback id `auto_<n>` (JS template `` `auto_${auto++}` ``). -/
def autoId (n : Nat) : String := "auto_" ++ Nat.repr n

/- The recursive worker of `normalizeTree` (source lines 364–372):
resolves `id` (given, else `auto_<n>` from the monotonic counter),
`label` (`label ?? name ?? String(id)`), recurses into the `children`
array when present and keeps the non-null results
(`.map(walk).filter(Boolean)`).  Returns the normalized node together
with the updated counter. -/
mutual
def walk : Raw → Nat → Option TNode × Nat
  | .null, n => (none, n)
  | .obj i l nm cs, n =>
    let idc : String × Nat :=
      match i with
      | some s => (s, n)
      | none => (autoId n, n + 1)
    let label : String := ((l.orElse fun _ => nm).getD idc.1)
    let wres : List (Option TNode) × Nat := walkC cs idc.2
    (some (.mk idc.1 label (ofList wres.1.reduceOption)), wres.2)
def walkC : RChildren → Nat → List (Option TNode) × Nat
  | .noArray, n => ([], n)
  | .arr list, n => walkL list n
def walkL : RList → Nat → List (Option TNode) × Nat
  | .nil, n => ([], n)
  | .cons r rs, n =>
    let p := walk r n
    let q := walkL rs p.2
    (p.1 :: q.1, q.2)
def ofList : List TNode → TList
  | [] => .nil
  | t :: ts => .cons t (ofList ts)
end

/-- `normalizeTree` (source lines 360–375): `null` for non-object-like
input, otherwise the normalized tree with a fresh counter. -/
def normalizeTree : Raw → Option TNode
  | .null => none
  | .obj i l nm cs => (walk (.obj i l nm cs) 0).1

/- `collectExpandableIds` (source lines 377–381): ids of every
canonical node with at least one child. -/
mutual
def collectExpandable : TNode → List String
  | .mk i _ cs =>
    (match cs with
     | .nil => []
     | .cons _ _ => [i]) ++ collectExpandableL cs
def collectExpandableL : TList → List String
  | .nil => []
  | .cons t ts => collectExpandable t ++ collectExpandableL ts
end

/-- The expandable-id set of a canonical tree, as a finite set. -/
def expandableIds (t : TNode) : Finset String := (collectExpandable t).toFinset

/- `buildVisibleTree` (source lines 383–387): a node keeps its children
iff its own id is in the expanded set; otherwise the children list is
emptied.  The root node itself is always kept. -/
mutual
def buildVisibleTree (E : Finset String) : TNode → TNode
  | .mk i l cs => if i ∈ E then .mk i l (buildVisibleL E cs) else .mk i l .nil
def buildVisibleL (E : Finset String) : TList → TList
  | .nil => .nil
  | .cons t ts => .cons (buildVisibleTree E t) (buildVisibleL E ts)
end

/-- `toggle` (source lines 491–498): no-op when the id is not
expandable, otherwise flip its membership in the expanded set. -/
def toggle (expandable : Finset String) (s : Finset String) (i : String) : Finset String :=
  if i ∈ expandable then (if i ∈ s then s.erase i else insert i s) else s

/-! ## Text utilities -/

/-- JS `text.split(' ')`: split on every single space character,
preserving empty segments (`"".split(' ')` is `[""]`). -/
def splitSpaceGo : List Char → String → List String
  | [], acc => [acc]
  | c :: cs, acc =>
    if c = Char.ofNat 32 then acc :: splitSpaceGo cs "" else splitSpaceGo cs (acc.push c)

def jsSplitSpace (s : String) : List String := splitSpaceGo s.data ""

/-- The loop of `wrapText` (source lines 346–356): greedily append each
word to the current line unless the measured test line exceeds
`maxWidth` and the current line is nonempty; flush the final line only
when it is nonempty (JS truthiness of the string). -/
def wrapLoop (measure : String → ℚ) (maxWidth : ℚ) : List String → String → List String
  | [], line => if line = "" then [] else [line]
  | w :: ws, line =>
    let test := if line = "" then w else line ++ " " ++ w
    if maxWidth < measure test ∧ line ≠ "" then line :: wrapLoop measure maxWidth ws w
    else wrapLoop measure maxWidth ws test

/-- `wrapText` (source lines 341–357). -/
def wrapText (measure : String → ℚ) (maxWidth : ℚ) (text : String) : List String :=
  wrapLoop measure maxWidth (jsSplitSpace text) ""

/-- The source's `measureText` fallback when no DOM is available
(source line 334: `if (typeof document === 'undefined') return 100`). -/
def defaultMeasure : String → ℚ := fun _ => 100

/-! ## Layout configuration constants (source lines 323–330) -/

def LINE_HEIGHT : ℚ := 20
def MAX_TEXT_WIDTH : ℚ := 260
def PADDING_X : ℚ := 22
def PADDING_Y : ℚ := 18
def CONNECTOR_RADIUS : ℚ := 9

/-! ## Spec-modelled tidy-tree positioning

The source obtains abstract positions from the external `d3-hierarchy`
`tree()` layout (`tree().nodeSize([nodeSpacing.y, nodeSpacing.x])`),
which is not code of this repository. -/

/- A tree annotated with its order-axis position. -/
mutual
inductive OTree where
  | mk (id : String) (label : String) (order : ℚ) (children : OList)
inductive OList where
  | onil
  | ocons (o : OTree) (os : OList)
end

def OTree.id : OTree → String
  | .mk i _ _ _ => i

def OTree.order : OTree → ℚ
  | .mk _ _ o _ => o

/-- First child's order position (0 when empty; only used on nonempty lists). -/
def OList.firstOrder : OList → ℚ
  | .onil => 0
  | .ocons o _ => o.order

/-- Last child's order position (0 when empty; only used on nonempty lists). -/
def OList.lastOrder : OList → ℚ
  | .onil => 0
  | .ocons o .onil => o.order
  | .ocons _ (.ocons o os) => OList.lastOrder (.ocons o os)

mutual
/-- Modelled from the spec: the tidy-tree positioning routine performed
in the source by the external `d3-hierarchy` `tree()` layout, which is
missing from this repository.  Following §4.4 and the design notes of
the spec, each node is assigned an order-axis position by one bottom-up
pass: the children of a node are laid out left to right with the fixed
sibling spacing `gap` between consecutive slots (a cursor advancing by
`gap` past each subtree), and a parent is centered over its children's
positions (midway between its first and last child); a leaf occupies
the current cursor slot.  Returns the annotated tree and the advanced
cursor. -/
def placeNode (gap : ℚ) : TNode → ℚ → OTree × ℚ
  | .mk i l .nil, cur => (.mk i l cur .onil, cur + gap)
  | .mk i l (.cons c cs), cur =>
    let pr := placeList gap (.cons c cs) cur
    (.mk i l ((OList.firstOrder pr.1 + OList.lastOrder pr.1) / 2) pr.1, pr.2)
def placeList (gap : ℚ) : TList → ℚ → OList × ℚ
  | .nil, cur => (.onil, cur)
  | .cons t ts, cur =>
    let p := placeNode gap t cur
    let q := placeList gap ts p.2
    (.ocons p.1 q.1, q.2)
end

/-- A node of the positioned tree before screen mapping: id, label,
depth (distance from the visible root) and order-axis position. -/
structure PrePos where
  id : String
  label : String
  depth : Nat
  order : ℚ
deriving Repr, DecidableEq

/- Flatten the placed tree into the descendant list (pre-order),
recording each node's depth. -/
mutual
def flattenO (d : Nat) : OTree → List PrePos
  | .mk i l o cs => ⟨i, l, d, o⟩ :: flattenOL (d + 1) cs
def flattenOL (d : Nat) : OList → List PrePos
  | .onil => []
  | .ocons o os => flattenO d o ++ flattenOL d os
end

/- Parent-to-child edges of the placed tree (`root.links()`),
as (parent id, child id) pairs. -/
mutual
def edgesO : OTree → List (String × String)
  | .mk i _ _ cs => edgesL i cs
def edgesL (p : String) : OList → List (String × String)
  | .onil => []
  | .ocons c cs => (p, c.id) :: (edgesO c ++ edgesL p cs)
end

/-! ## The layout pass (source lines 427–489) -/

/-- A positioned node as produced by the layout pass. -/
structure PNode where
  id : String
  label : String
  lines : List String
  depth : Nat
  hasChildren : Bool
  x : ℚ
  y : ℚ
  boxW : ℚ
  boxH : ℚ
deriving Repr, DecidableEq

structure PPoint where
  x : ℚ
  y : ℚ
deriving Repr, DecidableEq

/-- A positioned edge (`links` entry): id `"<parent>-<child>"`, source
and target attachment points. -/
structure PLink where
  id : String
  source : PPoint
  target : PPoint
deriving Repr, DecidableEq

/-- The returned bounds (source lines 484–487: only `maxX`/`maxY`). -/
structure PBounds where
  maxX : ℚ
  maxY : ℚ
deriving Repr, DecidableEq

structure LayoutResult where
  nodes : List PNode
  links : List PLink
  bounds : PBounds
deriving Repr, DecidableEq

/-- Sentinel standing in for JS `Infinity` in the bounds folds (the
source initialises `minX/minY` to `Infinity` and `maxX/maxY` to
`-Infinity`; the folds are only ever taken over the nonempty descendant
list, where the sentinel is immediately replaced). -/
def INFQ : ℚ := 10 ^ 100

/-- JS `Math.max(...xs)` (`-Infinity` on an empty spread). -/
def jsMaxQ : List ℚ → ℚ
  | [] => -INFQ
  | x :: xs => xs.foldl max x

/-- JS `Math.min(...xs)` / a fold started at `Infinity`. -/
def jsMinQ : List ℚ → ℚ
  | [] => INFQ
  | x :: xs => xs.foldl min x

/-- One entry of the `nodes` array (source lines 433–450): wrap the
label at `MAX_TEXT_WIDTH`, size the box from the widest measured line
and the line count, record depth and canonical expandability, and swap
the abstract axes into screen coordinates (`x: n.y, y: n.x`, i.e. the
screen x is `depth × nodeSpacing.x` and the screen y is the order-axis
position). -/
def mkPNode (measure : String → ℚ) (spacingX : ℚ) (expandable : Finset String)
    (p : PrePos) : PNode :=
  let lines := wrapText measure MAX_TEXT_WIDTH p.label
  let textWidth := jsMaxQ (lines.map measure)
  { id := p.id
    label := p.label
    lines := lines
    depth := p.depth
    hasChildren := decide (p.id ∈ expandable)
    x := (p.depth : ℚ) * spacingX
    y := p.order
    boxW := textWidth + PADDING_X * 2
    boxH := (lines.length : ℚ) * LINE_HEIGHT + PADDING_Y * 2 }

/-- `new Map(nodes.map(n => [n.id, n])).get(i)`: with duplicate keys the
last entry wins. -/
def jsMapGet (ns : List PNode) (i : String) : Option PNode :=
  (ns.filter fun n => n.id = i).getLast?

/-- Build one `links` entry (source lines 471–479): the source
attachment is the parent's anchor point `(s.x, s.y)` and the target
attachment is `(t.x + CONNECTOR_RADIUS, t.y)`, the midpoint of the
child box's leading edge.  The fallback is unreachable: every edge
endpoint id belongs to a node of the same pass. -/
def mkLink (ns : List PNode) (e : String × String) : PLink :=
  match jsMapGet ns e.1, jsMapGet ns e.2 with
  | some s, some t =>
    ⟨s.id ++ "-" ++ t.id, ⟨s.x, s.y⟩, ⟨t.x + CONNECTOR_RADIUS, t.y⟩⟩
  | _, _ => ⟨"", ⟨0, 0⟩, ⟨0, 0⟩⟩

/-- The layout pass after abstract positioning (source lines 433–488):
build the node records, fold the pre-shift bounds
(`minX = min x`, `minY = min (y − boxH/2)`, `maxX = max (x + boxW + 40)`,
`maxY = max (y + boxH/2)`), translate every node by
`(padding − minX, padding − minY)`, derive the links from the shifted
node map, and report `bounds = (maxX + shiftX + padding, maxY + shiftY + padding)`. -/
def finishLayout (measure : String → ℚ) (spacingX padding : ℚ)
    (expandable : Finset String) (pres : List PrePos)
    (edges : List (String × String)) : LayoutResult :=
  let nodes := pres.map (mkPNode measure spacingX expandable)
  let minX := jsMinQ (nodes.map fun n => n.x)
  let minY := jsMinQ (nodes.map fun n => n.y - n.boxH / 2)
  let maxX := jsMaxQ (nodes.map fun n => n.x + n.boxW + 40)
  let maxY := jsMaxQ (nodes.map fun n => n.y + n.boxH / 2)
  let shiftX := padding - minX
  let shiftY := padding - minY
  let shifted := nodes.map fun n => { n with x := n.x + shiftX, y := n.y + shiftY }
  let links := edges.map (mkLink shifted)
  ⟨shifted, links, ⟨maxX + shiftX + padding, maxY + shiftY + padding⟩⟩

/-- The whole layout pass over a visible tree: abstract positions from
the (spec-modelled) tidy-tree routine with sibling spacing
`nodeSpacing.y`, then the source's screen mapping, box sizing, bounds,
shift and links. -/
def layoutPass (measure : String → ℚ) (spacingX spacingY padding : ℚ)
    (expandable : Finset String) (visible : TNode) : LayoutResult :=
  let placed := (placeNode spacingY visible 0).1
  finishLayout measure spacingX padding expandable (flattenO 0 placed) (edgesO placed)

/- Claim C1's specification-side description of the visible id set: the
ids reachable from the canonical root by following only children whose
ancestor chain (excluding the node itself) is fully expanded — a node
contributes its id, and its children's contributions exactly when its
own id is expanded. -/
mutual
def specReachableIds (E : Finset String) : TNode → List String
  | .mk i _ cs => i :: (if i ∈ E then specReachableIdsL E cs else [])
def specReachableIdsL (E : Finset String) : TList → List String
  | .nil => []
  | .cons t ts => specReachableIds E t ++ specReachableIdsL E ts
end

/-- Length of a canonical child list. -/
def tlistLen : TList → Nat
  | .nil => 0
  | .cons _ ts => 1 + tlistLen ts

/-- Number of non-null (object-like) entries of a raw child array. -/
def rlistCountNonNull : RList → Nat
  | .nil => 0
  | .cons .null rs => rlistCountNonNull rs
  | .cons (.obj _ _ _ _) rs => 1 + rlistCountNonNull rs

/-- Reference decimal digit list (most-significant first), used to
reason about `Nat.repr` (which renders the synthesized `auto_<n>` ids). -/
def decDigits (n : Nat) : List Char :=
  if _h : n < 10 then [Nat.digitChar n]
  else decDigits (n / 10) ++ [Nat.digitChar (n % 10)]
  decreasing_by exact Nat.div_lt_self (by omega) (by omega)

/-- The multiset of ids `auto_n, …, auto_(m-1)` a normalization pass can
synthesize while its counter runs from `n` to `m`. -/
def autoRange (n m : Nat) : Multiset String :=
  ((List.range' n (m - n)).map autoId : List String)

/-- The box height the layout pass assigns to a label (line count times
`LINE_HEIGHT` plus vertical padding) — the `boxH` field of `mkPNode`. -/
def boxHOf (measure : String → ℚ) (label : String) : ℚ :=
  ((wrapText measure MAX_TEXT_WIDTH label).length : ℚ) * LINE_HEIGHT + PADDING_Y * 2

/-- The order-axis positions of the top-level entries of a placed list. -/
def topOrders : OList → List ℚ
  | .onil => []
  | .ocons o os => o.order :: topOrders os

/-- The (order, label) data of the top-level entries of a placed list. -/
def topInfo : OList → List (ℚ × String)
  | .onil => []
  | .ocons (.mk _ l o _) os => (o, l) :: topInfo os

/-- All ordered pairs (earlier, later) of distinct entries of a list. -/
def pairsOf {α : Type} : List α → List (α × α)
  | [] => []
  | x :: xs => (xs.map fun y => (x, y)) ++ pairsOf xs

/- All sibling pairs of a placed tree, as (order, label) data: for each
node, every ordered pair of distinct children, recursively. -/
mutual
def allSibPairs : OTree → List ((ℚ × String) × (ℚ × String))
  | .mk _ _ _ cs => pairsOf (topInfo cs) ++ allSibPairsL cs
def allSibPairsL : OList → List ((ℚ × String) × (ℚ × String))
  | .onil => []
  | .ocons o os => allSibPairs o ++ allSibPairsL os
end

/-! ## Lemmas and claim theorems -/

/-- Claim C5 counterexample: wrapping the empty string under the
non-DOM measure and the source's `MAX_TEXT_WIDTH` produces zero lines,
not the single empty line the claim asserts (the final `if (line)` guard
of `wrapText` drops the empty line). -/
theorem C5_wrap_empty_cex :
    wrapText defaultMeasure 260 "" = [] ∧ wrapText defaultMeasure 260 "" ≠ [""] := by
  constructor
  · decide
  · decide

/-- Claim C5 (amended): for every measure and every `maxWidth`, `wrapText`
applied to the empty string produces zero lines (the empty sequence),
because `"".split(' ')` yields `[""]`, the loop keeps the line empty, and
the final `if (line)` guard never pushes an empty line. -/
theorem C5_wrap_empty (measure : String → ℚ) (maxWidth : ℚ) :
    wrapText measure maxWidth "" = [] := by
  show wrapLoop measure maxWidth (splitSpaceGo ("" : String).data "") "" = []
  show wrapLoop measure maxWidth [""] "" = []
  rw [wrapLoop]
  norm_num
  rw [wrapLoop]
  norm_num

/-- One step of the wrap loop with an empty current line: the word is
always taken (JS truthiness short-circuits the break condition). -/
theorem wrapLoop_cons_empty (measure : String → ℚ) (maxWidth : ℚ) (w : String)
    (ws : List String) :
    wrapLoop measure maxWidth (w :: ws) "" = wrapLoop measure maxWidth ws w := by
  rw [wrapLoop]
  norm_num

/-- One step of the wrap loop when the extended line still fits. -/
theorem wrapLoop_cons_fit (measure : String → ℚ) (maxWidth : ℚ) (line w : String)
    (ws : List String) (h : line ≠ "")
    (hfit : measure (line ++ " " ++ w) ≤ maxWidth) :
    wrapLoop measure maxWidth (w :: ws) line
      = wrapLoop measure maxWidth ws (line ++ " " ++ w) := by
  rw [wrapLoop]
  simp only [if_neg h]
  rw [if_neg fun hc => absurd hc.1 (not_lt.2 hfit)]

/-- One step of the wrap loop when the extended line would overflow:
the current line is flushed and the word starts a new line. -/
theorem wrapLoop_cons_break (measure : String → ℚ) (maxWidth : ℚ) (line w : String)
    (ws : List String) (h : line ≠ "")
    (hbr : maxWidth < measure (line ++ " " ++ w)) :
    wrapLoop measure maxWidth (w :: ws) line
      = line :: wrapLoop measure maxWidth ws w := by
  rw [wrapLoop]
  simp only [if_neg h]
  rw [if_pos ⟨hbr, h⟩]

/-- Claim C6: `wrapText` implements greedy word wrap.  If the measured
width of `"a b"` is within `maxWidth` but `"a b c"` measures wider, then
`"a b c"` wraps to exactly `["a b", "c"]`; and a single word (no spaces,
nonempty) is kept on its own line unsplit whatever its measured width. -/
theorem C6_wrap_greedy (measure : String → ℚ) (maxWidth : ℚ) :
    (measure "a b" ≤ maxWidth → maxWidth < measure "a b c" →
      wrapText measure maxWidth "a b c" = ["a b", "c"])
    ∧ (∀ w : String, w ≠ "" → jsSplitSpace w = [w] →
      wrapText measure maxWidth w = [w]) := by
  constructor
  · intro h1 h2
    show wrapLoop measure maxWidth (jsSplitSpace "a b c") "" = ["a b", "c"]
    have hs : jsSplitSpace "a b c" = ["a", "b", "c"] := by decide
    rw [hs, wrapLoop_cons_empty]
    rw [wrapLoop_cons_fit measure maxWidth "a" "b" ["c"] (by decide) (by exact h1)]
    show wrapLoop measure maxWidth ["c"] "a b" = ["a b", "c"]
    rw [wrapLoop_cons_break measure maxWidth "a b" "c" [] (by decide) (by exact h2)]
    rw [wrapLoop, if_neg (by decide : ¬("c" : String) = "")]
  · intro w hw hsplit
    show wrapLoop measure maxWidth (jsSplitSpace w) "" = [w]
    rw [hsplit, wrapLoop_cons_empty, wrapLoop]
    simp [hw]

/-- Claim C6 witness: a concrete length-based measure with
`maxWidth = 4` wraps `"a b c"` into `["a b", "c"]` and keeps the long
single word `"hello"` unsplit. -/
theorem C6_wrap_greedy_witness :
    wrapText (fun s => (s.length : ℚ)) 4 "a b c" = ["a b", "c"]
    ∧ wrapText (fun s => (s.length : ℚ)) 4 "hello" = ["hello"] :=
  ⟨(C6_wrap_greedy (fun s => (s.length : ℚ)) 4).1 (by decide) (by decide),
   (C6_wrap_greedy (fun s => (s.length : ℚ)) 4).2 "hello" (by decide) (by decide)⟩

/-- Claim C9: `toggle` is a no-op when the id is not expandable;
otherwise it flips exactly that id's membership in the expanded set and
leaves the membership of every other id unchanged. -/
theorem C9_toggle_frame (expandable s : Finset String) (i : String) :
    (i ∉ expandable → toggle expandable s i = s)
    ∧ (i ∈ expandable →
        ((i ∈ toggle expandable s i ↔ i ∉ s)
        ∧ ∀ j : String, j ≠ i → (j ∈ toggle expandable s i ↔ j ∈ s))) := by
  constructor
  · intro h
    simp [toggle, h]
  · intro h
    constructor
    · by_cases hm : i ∈ s <;> simp [toggle, h, hm]
    · intro j hj
      by_cases hm : i ∈ s <;> simp [toggle, h, hm, hj, Finset.mem_erase, Finset.mem_insert]

/-- Claim C9 witness: toggling a non-expandable id is a no-op, and
toggling the expandable id `"a"` on the empty set flips it in. -/
theorem C9_toggle_frame_witness :
    toggle {"a"} ∅ "b" = ∅
    ∧ ("a" ∈ toggle {"a"} ∅ "a" ↔ "a" ∉ (∅ : Finset String)) :=
  ⟨(C9_toggle_frame {"a"} ∅ "b").1 (by decide),
   ((C9_toggle_frame {"a"} ∅ "a").2 (by decide)).1⟩

/-- Claim C10: the layout pass is a pure, deterministic function of the
visible tree, the expandable-id set, the configuration and the measure:
two passes over identical arguments produce identical node positions,
box sizes, edge endpoints and bounds. -/
theorem C10_layout_deterministic (measure : String → ℚ) (sx sy pad : ℚ)
    (E : Finset String) (v : TNode) (o1 o2 : LayoutResult)
    (h1 : o1 = layoutPass measure sx sy pad E v)
    (h2 : o2 = layoutPass measure sx sy pad E v) :
    o1.nodes = o2.nodes ∧ o1.links = o2.links ∧ o1.bounds = o2.bounds := by
  subst h1
  subst h2
  exact ⟨rfl, rfl, rfl⟩

/-- Claim C10 witness: two identical passes over a one-node tree agree. -/
theorem C10_layout_deterministic_witness :
    (layoutPass defaultMeasure 380 140 80 ∅ (.mk "r" "r" .nil)).nodes
      = (layoutPass defaultMeasure 380 140 80 ∅ (.mk "r" "r" .nil)).nodes
    ∧ (layoutPass defaultMeasure 380 140 80 ∅ (.mk "r" "r" .nil)).links
      = (layoutPass defaultMeasure 380 140 80 ∅ (.mk "r" "r" .nil)).links
    ∧ (layoutPass defaultMeasure 380 140 80 ∅ (.mk "r" "r" .nil)).bounds
      = (layoutPass defaultMeasure 380 140 80 ∅ (.mk "r" "r" .nil)).bounds :=
  C10_layout_deterministic defaultMeasure 380 140 80 ∅ (.mk "r" "r" .nil) _ _ rfl rfl

/-- The ids of the flattened placed tree are the ids of the visible
tree, in pre-order, for every depth offset and cursor. -/
theorem place_flatten_ids (gap : ℚ) (t : TNode) :
    ∀ (d : Nat) (cur : ℚ),
      (flattenO d (placeNode gap t cur).1).map PrePos.id = treeIds t := by
  refine @TNode.rec
    (fun t => ∀ (d : Nat) (cur : ℚ),
      (flattenO d (placeNode gap t cur).1).map PrePos.id = treeIds t)
    (fun ts => ∀ (d : Nat) (cur : ℚ),
      (flattenOL d (placeList gap ts cur).1).map PrePos.id = treeIdsL ts)
    ?_ ?_ ?_ t
  · intro i l cs ih d cur
    cases cs with
    | nil => simp [placeNode, flattenO, flattenOL, treeIds, treeIdsL]
    | cons c cs' =>
      rw [placeNode]
      simp only [flattenO, List.map_cons, treeIds]
      rw [ih (d + 1) cur]
  · intro d cur
    simp [placeList, flattenOL, treeIdsL]
  · intro t ts iht ihts d cur
    simp only [placeList, flattenOL, List.map_append, treeIdsL]
    rw [iht d cur, ihts d _]

/-- The node ids emitted by a layout pass are exactly the visible
tree's ids (box sizing and translation do not change ids). -/
theorem layoutPass_ids (measure : String → ℚ) (sx sy pad : ℚ)
    (X : Finset String) (v : TNode) :
    (layoutPass measure sx sy pad X v).nodes.map PNode.id = treeIds v := by
  show (((flattenO 0 (placeNode sy v 0).1).map
      (mkPNode measure sx X)).map _).map PNode.id = treeIds v
  rw [List.map_map, List.map_map]
  have h := place_flatten_ids sy v 0 0
  rw [← h]
  exact List.map_congr_left fun a _ => rfl

/-- The visible tree's id list is the claim's reachable-id description. -/
theorem visible_treeIds (E : Finset String) (t : TNode) :
    treeIds (buildVisibleTree E t) = specReachableIds E t := by
  refine @TNode.rec
    (fun t => treeIds (buildVisibleTree E t) = specReachableIds E t)
    (fun ts => treeIdsL (buildVisibleL E ts) = specReachableIdsL E ts)
    ?_ ?_ ?_ t
  · intro i l cs ih
    by_cases h : i ∈ E
    · simp [buildVisibleTree, treeIds, specReachableIds, h, ih]
    · simp [buildVisibleTree, treeIds, treeIdsL, specReachableIds, h]
  · simp [buildVisibleL, treeIdsL, specReachableIdsL]
  · intro t ts iht ihts
    simp [buildVisibleL, treeIdsL, specReachableIdsL, iht, ihts]

/-- The reachable ids are a subset of the canonical tree's ids. -/
theorem specReachableIds_subset (E : Finset String) (t : TNode) :
    ∀ x ∈ specReachableIds E t, x ∈ treeIds t := by
  refine @TNode.rec
    (fun t => ∀ x ∈ specReachableIds E t, x ∈ treeIds t)
    (fun ts => ∀ x ∈ specReachableIdsL E ts, x ∈ treeIdsL ts)
    ?_ ?_ ?_ t
  · intro i l cs ih x hx
    simp only [specReachableIds, List.mem_cons] at hx
    rcases hx with rfl | hx
    · simp [treeIds]
    · by_cases h : i ∈ E
      · rw [if_pos h] at hx
        simp only [treeIds, List.mem_cons]
        exact Or.inr (ih x hx)
      · rw [if_neg h] at hx
        simp at hx
  · intro x hx
    simp [specReachableIdsL] at hx
  · intro t ts iht ihts x hx
    simp only [specReachableIdsL, List.mem_append] at hx
    simp only [treeIdsL, List.mem_append]
    exact hx.imp (iht x) (ihts x)

/-- The root id always heads its own reachable-id list. -/
theorem specReachableIds_root_mem (E : Finset String) (t : TNode) :
    t.id ∈ specReachableIds E t := by
  cases t with
  | mk i l cs => simp [specReachableIds, TNode.id]

/-- Claim C1: the ids in the positioned-node output of a layout pass
over `buildVisibleTree` are exactly the ids reachable from the
canonical root by following only children whose ancestor chain
(excluding the node itself) is fully expanded; they are a subset of the
canonical tree's ids, and the root id is always present regardless of
its own expanded-set membership. -/
theorem C1_visible_layout_ids (measure : String → ℚ) (sx sy pad : ℚ)
    (X : Finset String) (t : TNode) (E : Finset String) :
    (∀ x : String,
      x ∈ (layoutPass measure sx sy pad X (buildVisibleTree E t)).nodes.map PNode.id
        ↔ x ∈ specReachableIds E t)
    ∧ (∀ x ∈ (layoutPass measure sx sy pad X (buildVisibleTree E t)).nodes.map PNode.id,
        x ∈ treeIds t)
    ∧ t.id ∈ (layoutPass measure sx sy pad X (buildVisibleTree E t)).nodes.map PNode.id := by
  rw [layoutPass_ids, visible_treeIds]
  exact ⟨fun x => Iff.rfl, specReachableIds_subset E t,
    specReachableIds_root_mem E t⟩

/-- Claim C1 witness: the collapsed one-node tree keeps its root id in
the layout output. -/
theorem C1_visible_layout_ids_witness :
    ("r" : String) ∈ (layoutPass defaultMeasure 380 140 80 ∅
      (buildVisibleTree ∅ (.mk "r" "r" .nil))).nodes.map PNode.id :=
  (C1_visible_layout_ids defaultMeasure 380 140 80 ∅ (.mk "r" "r" .nil) ∅).2.2

/-- A `jsMapGet` lookup succeeds whenever some node carries the id, and
returns a node of the list carrying that id. -/
theorem jsMapGet_found (ns : List PNode) (i : String) (n : PNode)
    (hn : n ∈ ns) (hni : n.id = i) :
    ∃ m, jsMapGet ns i = some m ∧ m ∈ ns ∧ m.id = i := by
  have hmem : n ∈ ns.filter fun n => n.id = i :=
    List.mem_filter.2 ⟨hn, by simp [hni]⟩
  have hne : (ns.filter fun n => n.id = i) ≠ [] := by
    intro hnil
    rw [hnil] at hmem
    exact absurd hmem (List.not_mem_nil n)
  refine ⟨(ns.filter fun n => n.id = i).getLast hne, ?_, ?_, ?_⟩
  · show (ns.filter fun n => n.id = i).getLast? = some _
    exact List.getLast?_eq_getLast_of_ne_nil hne
  · exact (List.mem_filter.1 (List.getLast_mem hne)).1
  · have := (List.mem_filter.1 (List.getLast_mem hne)).2
    simpa using this

/-- The flattened record of a placed node starts with its own id. -/
theorem flattenO_head_mem (o : OTree) (d : Nat) :
    o.id ∈ (flattenO d o).map PrePos.id := by
  cases o with
  | mk i l ord cs => simp [flattenO, OTree.id]

/-- Every edge endpoint of the placed tree is the id of some flattened
record (at every depth offset). -/
theorem edgesO_endpoints (o : OTree) :
    ∀ pr ∈ edgesO o, ∀ d : Nat,
      pr.1 ∈ (flattenO d o).map PrePos.id ∧ pr.2 ∈ (flattenO d o).map PrePos.id := by
  refine @OTree.rec
    (fun o => ∀ pr ∈ edgesO o, ∀ d : Nat,
      pr.1 ∈ (flattenO d o).map PrePos.id ∧ pr.2 ∈ (flattenO d o).map PrePos.id)
    (fun os => ∀ (p : String) (pr : String × String), pr ∈ edgesL p os → ∀ d : Nat,
      (pr.1 = p ∨ pr.1 ∈ (flattenOL d os).map PrePos.id)
      ∧ pr.2 ∈ (flattenOL d os).map PrePos.id)
    ?_ ?_ ?_ o
  · intro i l ord cs ih pr hpr d
    have h := ih i pr hpr (d + 1)
    simp only [flattenO, List.map_cons, List.mem_cons]
    refine ⟨?_, Or.inr h.2⟩
    rcases h.1 with h1 | h1
    · exact Or.inl h1
    · exact Or.inr h1
  · intro p pr hpr d
    simp [edgesL] at hpr
  · intro c cs ihc ihcs p pr hpr d
    simp only [edgesL, List.mem_cons, List.mem_append] at hpr
    simp only [flattenOL, List.map_append, List.mem_append]
    rcases hpr with rfl | hpr | hpr
    · exact ⟨Or.inl rfl, Or.inl (flattenO_head_mem c d)⟩
    · have h := ihc pr hpr d
      exact ⟨Or.inr (Or.inl h.1), Or.inl h.2⟩
    · have h := ihcs p pr hpr d
      refine ⟨?_, Or.inr h.2⟩
      rcases h.1 with h1 | h1
      · exact Or.inl h1
      · exact Or.inr (Or.inr h1)

/-- The layout pass keeps the flattened ids on its (shifted) nodes. -/
theorem layoutPass_nodes_ids (measure : String → ℚ) (sx sy pad : ℚ)
    (X : Finset String) (v : TNode) :
    (layoutPass measure sx sy pad X v).nodes.map PNode.id
      = (flattenO 0 (placeNode sy v 0).1).map PrePos.id := by
  show (((flattenO 0 (placeNode sy v 0).1).map
      (mkPNode measure sx X)).map _).map PNode.id = _
  rw [List.map_map, List.map_map]
  exact List.map_congr_left fun a _ => rfl

/-- Claim C4 (amended): every edge of the layout output attaches its
source at the parent node's anchor point `(s.x, s.y)` — the left edge of
the parent's connector marker at the box's vertical midpoint, not the
box's trailing edge — and its target at the child box's leading-edge
midpoint `(t.x + CONNECTOR_RADIUS, t.y)`, i.e. offset from the child's
anchor by the connector-node radius. -/
theorem C4_link_attach (measure : String → ℚ) (sx sy pad : ℚ)
    (X : Finset String) (v : TNode) :
    ∀ lk ∈ (layoutPass measure sx sy pad X v).links,
      ∃ s ∈ (layoutPass measure sx sy pad X v).nodes,
      ∃ t ∈ (layoutPass measure sx sy pad X v).nodes,
        lk.id = s.id ++ "-" ++ t.id
        ∧ lk.source = ⟨s.x, s.y⟩
        ∧ lk.target = ⟨t.x + CONNECTOR_RADIUS, t.y⟩ := by
  intro lk hlk
  have hlk' : lk ∈ (edgesO (placeNode sy v 0).1).map
      (mkLink (layoutPass measure sx sy pad X v).nodes) := hlk
  obtain ⟨e, he, rfl⟩ := List.mem_map.1 hlk'
  have hend := edgesO_endpoints (placeNode sy v 0).1 e he 0
  have hids := layoutPass_nodes_ids measure sx sy pad X v
  have h1 : e.1 ∈ (layoutPass measure sx sy pad X v).nodes.map PNode.id := by
    rw [hids]
    exact hend.1
  have h2 : e.2 ∈ (layoutPass measure sx sy pad X v).nodes.map PNode.id := by
    rw [hids]
    exact hend.2
  obtain ⟨s0, hs0, hs0i⟩ := List.mem_map.1 h1
  obtain ⟨t0, ht0, ht0i⟩ := List.mem_map.1 h2
  obtain ⟨s, hsget, hsmem, hsid⟩ :=
    jsMapGet_found (layoutPass measure sx sy pad X v).nodes e.1 s0 hs0 hs0i
  obtain ⟨t, htget, htmem, htid⟩ :=
    jsMapGet_found (layoutPass measure sx sy pad X v).nodes e.2 t0 ht0 ht0i
  refine ⟨s, hsmem, t, htmem, ?_⟩
  rw [mkLink, hsget, htget]
  exact ⟨rfl, rfl, rfl⟩

/-- The full evaluation of a layout pass over the concrete two-node
tree `r → a` with default configuration and the non-DOM measure. -/
theorem layoutEval_twoNode :
    (layoutPass defaultMeasure 380 140 80
        (expandableIds (.mk "r" "r" (.cons (.mk "a" "A" .nil) .nil)))
        (buildVisibleTree {"r"} (.mk "r" "r" (.cons (.mk "a" "A" .nil) .nil))))
      = ⟨[⟨"r", "r", ["r"], 0, true, 80, 108, 144, 56⟩,
          ⟨"a", "A", ["A"], 1, false, 460, 108, 144, 56⟩],
         [⟨"r-a", ⟨80, 108⟩, ⟨469, 108⟩⟩],
         ⟨724, 216⟩⟩ := by
  have hw1 : wrapText defaultMeasure 260 "r" = ["r"] := by decide
  have hw2 : wrapText defaultMeasure 260 "A" = ["A"] := by decide
  have hx1 : "r" ∈ expandableIds (TNode.mk "r" "r" (.cons (.mk "a" "A" .nil) .nil)) := by
    decide
  have hx2 : ¬ "a" ∈ expandableIds (TNode.mk "r" "r" (.cons (.mk "a" "A" .nil) .nil)) := by
    decide
  have hv : buildVisibleTree {"r"} (TNode.mk "r" "r" (.cons (.mk "a" "A" .nil) .nil))
      = TNode.mk "r" "r" (.cons (.mk "a" "A" .nil) .nil) := by decide
  rw [hv]
  simp only [layoutPass, finishLayout, placeNode, placeList, flattenO, flattenOL,
    edgesO, edgesL, mkPNode, mkLink, jsMapGet, jsMinQ, jsMaxQ, OList.firstOrder,
    OList.lastOrder, OTree.order, OTree.id, defaultMeasure, LINE_HEIGHT,
    MAX_TEXT_WIDTH, PADDING_X, PADDING_Y, CONNECTOR_RADIUS, hw1, hw2, hx1, hx2,
    List.map, List.filter, List.getLast?, List.getLast, List.foldl,
    decide_True, decide_False, not_false_eq_true, eq_self_iff_true, if_true, if_false,
    String.reduceEq]
  norm_num
  decide

/-- Claim C4 witness: the single edge of a two-node layout attaches as
the amended claim states. -/
theorem C4_link_attach_witness :
    ∃ s ∈ (layoutPass defaultMeasure 380 140 80
        (expandableIds (.mk "r" "r" (.cons (.mk "a" "A" .nil) .nil)))
        (buildVisibleTree {"r"} (.mk "r" "r" (.cons (.mk "a" "A" .nil) .nil)))).nodes,
    ∃ t ∈ (layoutPass defaultMeasure 380 140 80
        (expandableIds (.mk "r" "r" (.cons (.mk "a" "A" .nil) .nil)))
        (buildVisibleTree {"r"} (.mk "r" "r" (.cons (.mk "a" "A" .nil) .nil)))).nodes,
      (PLink.mk "r-a" ⟨80, 108⟩ ⟨469, 108⟩).id = s.id ++ "-" ++ t.id
      ∧ (PLink.mk "r-a" ⟨80, 108⟩ ⟨469, 108⟩).source = ⟨s.x, s.y⟩
      ∧ (PLink.mk "r-a" ⟨80, 108⟩ ⟨469, 108⟩).target = ⟨t.x + CONNECTOR_RADIUS, t.y⟩ :=
  C4_link_attach defaultMeasure 380 140 80
    (expandableIds (.mk "r" "r" (.cons (.mk "a" "A" .nil) .nil)))
    (buildVisibleTree {"r"} (.mk "r" "r" (.cons (.mk "a" "A" .nil) .nil)))
    (PLink.mk "r-a" ⟨80, 108⟩ ⟨469, 108⟩)
    (by rw [layoutEval_twoNode]; exact List.mem_singleton.2 rfl)

/-- Claim C4 counterexample: in the concrete two-node layout the edge's
source x-coordinate is the parent's anchor `80`, while the midpoint of
the parent box's trailing (right) edge lies at
`80 + CONNECTOR_RADIUS + 144 = 233`; the source attachment is therefore
not the trailing-edge midpoint the claim asserts. -/
theorem C4_link_attach_cex :
    (layoutPass defaultMeasure 380 140 80
        (expandableIds (.mk "r" "r" (.cons (.mk "a" "A" .nil) .nil)))
        (buildVisibleTree {"r"} (.mk "r" "r" (.cons (.mk "a" "A" .nil) .nil)))).links
      = [⟨"r-a", ⟨80, 108⟩, ⟨469, 108⟩⟩]
    ∧ (layoutPass defaultMeasure 380 140 80
        (expandableIds (.mk "r" "r" (.cons (.mk "a" "A" .nil) .nil)))
        (buildVisibleTree {"r"} (.mk "r" "r" (.cons (.mk "a" "A" .nil) .nil)))).nodes.map
          (fun n => (n.id, n.x, n.boxW))
      = [("r", 80, 144), ("a", 460, 144)]
    ∧ (80 : ℚ) ≠ 80 + CONNECTOR_RADIUS + 144 := by
  refine ⟨by rw [layoutEval_twoNode], by rw [layoutEval_twoNode]; simp, ?_⟩
  rw [CONNECTOR_RADIUS]
  norm_num

/-- `walk` succeeds exactly on non-null input, and each non-null child
contributes exactly one entry after the `filter(Boolean)` step. -/
theorem walkL_reduceOption_length (cs : RList) :
    ∀ n : Nat, (walkL cs n).1.reduceOption.length = rlistCountNonNull cs := by
  refine @RList.rec (fun _ => True) (fun _ => True)
    (fun cs => ∀ n : Nat, (walkL cs n).1.reduceOption.length = rlistCountNonNull cs)
    trivial (fun _ _ _ _ _ => trivial) trivial (fun _ _ => trivial) ?_ ?_ cs
  · intro n
    simp [walkL, rlistCountNonNull, List.reduceOption]
  · intro r rs _ ih n
    cases r with
    | null =>
      simp only [walkL, walk, rlistCountNonNull, List.reduceOption_cons_of_none]
      exact ih n
    | obj i l nm cs' =>
      simp only [walkL, walk, rlistCountNonNull, List.reduceOption_cons_of_some,
        List.length_cons]
      rw [ih]
      omega

/-- Claim C8 (amended): during normalization an object-like child is
never dropped — in particular a child lacking an id is always kept, its
`auto_<n>` id synthesis always succeeds, and no collision check exists;
exactly the null (non-object-like) entries are filtered out of
`children`. -/
theorem C8_child_never_dropped (i l nm : Option String) (cs : RList) (n : Nat) :
    ∃ t : TNode, (walk (.obj i l nm (.arr cs)) n).1 = some t
      ∧ tlistLen t.children = rlistCountNonNull cs := by
  refine ⟨.mk (match i with | some s => s | none => autoId n)
      (((l.orElse fun _ => nm).getD (match i with | some s => s | none => autoId n)))
      (ofList (walkL cs (match i with | some _ => n | none => n + 1)).1.reduceOption),
    ?_, ?_⟩
  · cases i <;> simp [walk, walkC]
  · show tlistLen (ofList _) = _
    rw [← walkL_reduceOption_length cs (match i with | some _ => n | none => n + 1)]
    generalize (walkL cs (match i with | some _ => n | none => n + 1)).1.reduceOption = xs
    induction xs with
    | nil => simp [ofList, tlistLen]
    | cons x xs ihx => simp [ofList, tlistLen, ihx, Nat.add_comm]

/-- Claim C8 counterexample: the child `{label:'x'}` of the root
`{id:'auto_0', ...}` has no id; its synthesized id `auto_0` collides
with the root's explicit id, yet the child is not dropped — the
normalized tree keeps it and genuinely contains the duplicated id. -/
theorem C8_child_never_dropped_cex :
    normalizeTree (.obj (some "auto_0") none none
        (.arr (.cons (.obj none (some "x") none .noArray) .nil)))
      = some (.mk "auto_0" "auto_0" (.cons (.mk "auto_0" "x" .nil) .nil))
    ∧ treeIds (.mk "auto_0" "auto_0" (.cons (.mk "auto_0" "x" .nil) .nil))
      = ["auto_0", "auto_0"] := by
  constructor
  · decide
  · decide

/-- Unfolding `decDigits` below 10. -/
theorem decDigits_lt {n : Nat} (h : n < 10) : decDigits n = [Nat.digitChar n] := by
  rw [decDigits, dif_pos h]

/-- Unfolding `decDigits` at 10 and above. -/
theorem decDigits_ge {n : Nat} (h : ¬ n < 10) :
    decDigits n = decDigits (n / 10) ++ [Nat.digitChar (n % 10)] := by
  conv_lhs => rw [decDigits]
  rw [dif_neg h]

/-- `Nat.toDigitsCore` agrees with the reference digit list. -/
theorem toDigitsCore_eq_decDigits (fuel n : Nat) (ds : List Char) (h : n / 10 < fuel) :
    Nat.toDigitsCore 10 fuel n ds = decDigits n ++ ds := by
  induction fuel generalizing n ds with
  | zero => omega
  | succ f ih =>
    rw [Nat.toDigitsCore]
    by_cases h0 : n / 10 = 0
    · have hn : n < 10 := by omega
      rw [if_pos h0, decDigits_lt hn, Nat.mod_eq_of_lt hn]
      simp
    · rw [if_neg h0]
      have hlt : n / 10 / 10 < f := by
        have h1 : n / 10 / 10 < n / 10 := Nat.div_lt_self (by omega) (by omega)
        omega
      rw [ih (n / 10) _ hlt, decDigits_ge (by omega : ¬ n < 10)]
      simp

/-- `Nat.repr` renders the reference digit list. -/
theorem repr_eq_decDigits (n : Nat) : Nat.repr n = (decDigits n).asString := by
  rw [Nat.repr, Nat.toDigits, toDigitsCore_eq_decDigits _ _ _ (by omega : n / 10 < n + 1)]
  simp

theorem decDigits_ne_nil (n : Nat) : decDigits n ≠ [] := by
  by_cases h : n < 10
  · rw [decDigits_lt h]; simp
  · rw [decDigits_ge h]; simp

/-- `Nat.digitChar` is injective below 10. -/
theorem digitChar_inj_lt (a b : Nat) (ha : a < 10) (hb : b < 10)
    (h : Nat.digitChar a = Nat.digitChar b) : a = b := by
  interval_cases a <;> interval_cases b <;> simp_all [Nat.digitChar]

/-- The reference digit list is injective. -/
theorem decDigits_inj (m : Nat) : ∀ n, decDigits m = decDigits n → m = n := by
  induction m using Nat.strong_induction_on with
  | _ m ih =>
    intro n h
    by_cases hm : m < 10 <;> by_cases hn : n < 10
    · rw [decDigits_lt hm, decDigits_lt hn] at h
      exact digitChar_inj_lt m n hm hn (by simpa using h)
    · rw [decDigits_lt hm, decDigits_ge hn] at h
      have hlen := congrArg List.length h
      simp [List.length_eq_zero] at hlen
      exact absurd hlen (decDigits_ne_nil (n / 10))
    · rw [decDigits_ge hm, decDigits_lt hn] at h
      have hlen := congrArg List.length h
      simp [List.length_eq_zero] at hlen
      exact absurd hlen (decDigits_ne_nil (m / 10))
    · rw [decDigits_ge hm, decDigits_ge hn] at h
      have hp := List.append_inj' h (by simp)
      have h1 : m / 10 = n / 10 := ih (m / 10) (Nat.div_lt_self (by omega) (by omega)) _ hp.1
      have h2 : m % 10 = n % 10 := by
        have := hp.2
        simp at this
        exact digitChar_inj_lt _ _ (Nat.mod_lt _ (by omega)) (Nat.mod_lt _ (by omega)) this
      omega

/-- `Nat.repr` is injective — distinct counters yield distinct strings. -/
theorem nat_repr_inj (m n : Nat) (h : Nat.repr m = Nat.repr n) : m = n := by
  rw [repr_eq_decDigits, repr_eq_decDigits] at h
  apply decDigits_inj
  have := congrArg String.data h
  simpa [List.asString] using this

/-- The synthesized ids `auto_<n>` are pairwise distinct. -/
theorem autoId_inj : Function.Injective autoId := by
  intro m n h
  apply nat_repr_inj
  have hd := congrArg String.data h
  simp only [autoId, String.data_append] at hd
  have := List.append_cancel_left hd
  exact String.ext this

/-- Synthesized ids are at least 6 characters long. -/
theorem autoId_length (k : Nat) : 6 ≤ (autoId k).length := by
  have h1 : (autoId k).length = 5 + (Nat.repr k).length := by
    simp [autoId, String.length_append]
    decide
  have h2 : (Nat.repr k).length ≠ 0 := by
    rw [repr_eq_decDigits]
    intro hc
    apply decDigits_ne_nil k
    have : (decDigits k).asString.data = [] := by
      cases hasc : (decDigits k).asString with
      | mk l =>
        rw [hasc] at hc
        simpa [String.length] using hc
    simpa [List.asString] using this
  omega

theorem autoRange_self (n : Nat) : autoRange n n = 0 := by
  simp [autoRange]

/-- Splitting the synthesized-id range at an intermediate counter. -/
theorem autoRange_split (n m k : Nat) (h1 : n ≤ m) (h2 : m ≤ k) :
    autoRange n m + autoRange m k = autoRange n k := by
  simp only [autoRange]
  rw [Multiset.coe_add, ← List.map_append]
  have : List.range' n (m - n) ++ List.range' m (k - m) = List.range' n (k - n) := by
    have := List.range'_append n (m - n) (k - m) 1
    simp only [one_mul, Nat.add_sub_cancel' h1] at this
    rw [this]
    congr 1
    omega
  rw [this]

/-- Peeling the first synthesized id off the range. -/
theorem autoRange_cons (n m : Nat) (h : n < m) :
    autoRange n m = autoId n ::ₘ autoRange (n + 1) m := by
  simp only [autoRange]
  have : List.range' n (m - n) = n :: List.range' (n + 1) (m - (n + 1)) := by
    have h1 : m - n = (m - (n + 1)) + 1 := by omega
    rw [h1, List.range'_succ]
  rw [this]
  simp

theorem autoRange_nodup (n m : Nat) : (autoRange n m).Nodup := by
  simp only [autoRange, Multiset.coe_nodup]
  exact (List.nodup_range' _ _).map autoId_inj

/-- The id-multiset invariant of the normalization walk: the counter
never decreases, and the ids of the produced tree are drawn (with
multiplicity) from the input's explicit ids plus one synthesized
`auto_<k>` per counter step consumed. -/
theorem walk_ids_bound (r : Raw) :
    ∀ n : Nat, n ≤ (walk r n).2 ∧ ∀ t, (walk r n).1 = some t →
      (treeIds t : Multiset String)
        ≤ (explicitIds r : Multiset String) + autoRange n (walk r n).2 := by
  refine @Raw.rec
    (fun r => ∀ n : Nat, n ≤ (walk r n).2 ∧ ∀ t, (walk r n).1 = some t →
      (treeIds t : Multiset String)
        ≤ (explicitIds r : Multiset String) + autoRange n (walk r n).2)
    (fun cs => ∀ n : Nat, n ≤ (walkC cs n).2 ∧
      (treeIdsL (ofList (walkC cs n).1.reduceOption) : Multiset String)
        ≤ (explicitIdsC cs : Multiset String) + autoRange n (walkC cs n).2)
    (fun rs => ∀ n : Nat, n ≤ (walkL rs n).2 ∧
      (treeIdsL (ofList (walkL rs n).1.reduceOption) : Multiset String)
        ≤ (explicitIdsL rs : Multiset String) + autoRange n (walkL rs n).2)
    ?_ ?_ ?_ ?_ ?_ ?_ r
  · intro n
    exact ⟨le_refl n, fun t ht => by simp [walk] at ht⟩
  · intro i l nm cs ih n
    cases i with
    | some s =>
      refine ⟨(ih n).1, fun t ht => ?_⟩
      simp only [walk] at ht ⊢
      cases ht
      simp only [treeIds, explicitIds, Option.toList, List.cons_append, List.nil_append,
        ← Multiset.cons_coe, Multiset.cons_add]
      exact Multiset.cons_le_cons s (ih n).2
    | none =>
      have h1 : n + 1 ≤ (walkC cs (n + 1)).2 := (ih (n + 1)).1
      refine ⟨by simp only [walk]; omega, fun t ht => ?_⟩
      simp only [walk] at ht ⊢
      cases ht
      simp only [treeIds, explicitIds, Option.toList, List.nil_append,
        ← Multiset.cons_coe]
      rw [autoRange_cons n _ (by omega)]
      rw [add_comm ((explicitIdsC cs : Multiset String)) _, Multiset.cons_add,
        add_comm _ ((explicitIdsC cs : Multiset String))]
      exact Multiset.cons_le_cons (autoId n) (ih (n + 1)).2
  · intro n
    simp only [walkC, List.reduceOption, ofList, treeIdsL, explicitIdsC]
    exact ⟨le_refl n, by simp⟩
  · intro cs ih n
    simpa only [walkC, explicitIdsC] using ih n
  · intro n
    simp only [walkL, List.reduceOption, ofList, treeIdsL, explicitIdsL]
    exact ⟨le_refl n, by simp⟩
  · intro r rs ihr ihrs n
    cases r with
    | null =>
      have h := ihrs n
      refine ⟨by simpa only [walkL, walk] using h.1, ?_⟩
      simpa only [walkL, walk, List.reduceOption_cons_of_none, explicitIds,
        explicitIdsL, List.nil_append] using h.2
    | obj i l nm cs' =>
      obtain ⟨T, hT⟩ : ∃ T, (walk (.obj i l nm cs') n).1 = some T := by
        cases i <;> simp [walk]
      have hn1 : n ≤ (walk (.obj i l nm cs') n).2 := (ihr n).1
      have hn2 : (walk (.obj i l nm cs') n).2 ≤ (walkL rs (walk (.obj i l nm cs') n).2).2 :=
        (ihrs (walk (.obj i l nm cs') n).2).1
      constructor
      · show n ≤ (walkL rs (walk (.obj i l nm cs') n).2).2
        omega
      · show (treeIdsL (ofList (((walk (.obj i l nm cs') n).1 ::
            (walkL rs (walk (.obj i l nm cs') n).2).1).reduceOption)) : Multiset String) ≤ _
        rw [hT, List.reduceOption_cons_of_some]
        simp only [ofList, treeIdsL, explicitIdsL]
        rw [← Multiset.coe_add]
        have hhead := (ihr n).2 T hT
        have htail := (ihrs (walk (.obj i l nm cs') n).2).2
        calc (treeIds T : Multiset String)
              + (treeIdsL (ofList (walkL rs (walk (.obj i l nm cs') n).2).1.reduceOption)
                  : Multiset String)
            ≤ ((explicitIds (.obj i l nm cs') : Multiset String)
                + autoRange n (walk (.obj i l nm cs') n).2)
              + ((explicitIdsL rs : Multiset String)
                + autoRange (walk (.obj i l nm cs') n).2
                    (walkL rs (walk (.obj i l nm cs') n).2).2) :=
              add_le_add hhead htail
          _ = ((explicitIds (.obj i l nm cs') : Multiset String)
                + (explicitIdsL rs : Multiset String))
              + (autoRange n (walk (.obj i l nm cs') n).2
                + autoRange (walk (.obj i l nm cs') n).2
                    (walkL rs (walk (.obj i l nm cs') n).2).2) := by
              rw [add_add_add_comm]
          _ = _ := by
              rw [autoRange_split _ _ _ hn1 hn2, Multiset.coe_add]
              rfl

/-- Claim C2 (amended): `normalizeTree` output has unique ids provided
the input's explicitly supplied ids are pairwise distinct and none of
them coincides with any synthesized `auto_<n>` id; the synthesized ids
themselves are always pairwise distinct thanks to the monotonic
counter.  (Without these provisos duplicates pass through unchanged —
the code performs no uniqueness check.) -/
theorem C2_normalize_unique_ids (r : Raw) (t : TNode)
    (hnorm : normalizeTree r = some t)
    (hdistinct : (explicitIds r).Nodup)
    (hnoauto : ∀ k : Nat, autoId k ∉ explicitIds r) :
    (treeIds t).Nodup := by
  have hwalk : (walk r 0).1 = some t := by
    cases r with
    | null => simp [normalizeTree] at hnorm
    | obj i l nm cs => exact hnorm
  have hb := (walk_ids_bound r 0).2 t hwalk
  have hrhs : ((explicitIds r : Multiset String) + autoRange 0 (walk r 0).2).Nodup := by
    rw [Multiset.nodup_add]
    refine ⟨by simpa using hdistinct, autoRange_nodup _ _, ?_⟩
    rw [Multiset.disjoint_left]
    intro a ha hb'
    simp only [autoRange, Multiset.mem_coe, List.mem_map] at hb'
    obtain ⟨k, _, rfl⟩ := hb'
    exact hnoauto k (by simpa using ha)
  have := Multiset.nodup_of_le hb hrhs
  simpa using this

/-- Claim C2 counterexample: the input `{id:'x', children:[{id:'x'}]}`
— valid under the input contract, which nowhere requires distinct ids —
normalizes to a tree whose id list is `[x, x]`: ids are not unique. -/
theorem C2_normalize_unique_ids_cex :
    normalizeTree (.obj (some "x") none none
        (.arr (.cons (.obj (some "x") none none .noArray) .nil)))
      = some (.mk "x" "x" (.cons (.mk "x" "x" .nil) .nil))
    ∧ ¬ (treeIds (.mk "x" "x" (.cons (.mk "x" "x" .nil) .nil))).Nodup := by
  constructor
  · decide
  · decide

/-- Claim C2 witness: the input `{id:'r', children:[{}]}` satisfies the
amended provisos and its normalization `[r, auto_0]` has unique ids. -/
theorem C2_normalize_unique_ids_witness :
    (treeIds (.mk "r" "r" (.cons (.mk "auto_0" "auto_0" .nil) .nil))).Nodup :=
  C2_normalize_unique_ids
    (.obj (some "r") none none (.arr (.cons (.obj none none none .noArray) .nil)))
    (.mk "r" "r" (.cons (.mk "auto_0" "auto_0" .nil) .nil))
    (by decide) (by decide)
    (fun k hk => by
      have h6 := autoId_length k
      have hk' : autoId k = "r" := by
        simpa [explicitIds, explicitIdsC, explicitIdsL, Option.toList] using hk
      have hlen := congrArg String.length hk'
      have h1 : ("r" : String).length = 1 := rfl
      omega)

/-- A left fold of `min` is a lower bound of its initial value and all
list elements. -/
theorem foldl_min_le (as : List ℚ) : ∀ a x : ℚ, x ∈ a :: as → as.foldl min a ≤ x := by
  induction as with
  | nil =>
    intro a x hx
    simp at hx
    simp [hx]
  | cons b bs ih =>
    intro a x hx
    simp only [List.foldl]
    rcases List.mem_cons.1 hx with rfl | hx'
    · exact le_trans (ih (min x b) _ (List.mem_cons_self _ _)) (min_le_left x b)
    · rcases List.mem_cons.1 hx' with rfl | hx''
      · exact le_trans (ih (min a x) _ (List.mem_cons_self _ _)) (min_le_right a x)
      · exact ih (min a b) x (List.mem_cons.2 (Or.inr hx''))

/-- A left fold of `max` is an upper bound of its initial value and all
list elements. -/
theorem foldl_max_ge (as : List ℚ) : ∀ a x : ℚ, x ∈ a :: as → x ≤ as.foldl max a := by
  induction as with
  | nil =>
    intro a x hx
    simp at hx
    simp [hx]
  | cons b bs ih =>
    intro a x hx
    simp only [List.foldl]
    rcases List.mem_cons.1 hx with rfl | hx'
    · exact le_trans (le_max_left x b) (ih (max x b) _ (List.mem_cons_self _ _))
    · rcases List.mem_cons.1 hx' with rfl | hx''
      · exact le_trans (le_max_right a x) (ih (max a x) _ (List.mem_cons_self _ _))
      · exact ih (max a b) x (List.mem_cons.2 (Or.inr hx''))

/-- `jsMinQ` bounds every element from below. -/
theorem jsMinQ_le (l : List ℚ) (x : ℚ) (hx : x ∈ l) : jsMinQ l ≤ x := by
  cases l with
  | nil => exact absurd hx (List.not_mem_nil x)
  | cons a as => exact foldl_min_le as a x hx

/-- `jsMaxQ` bounds every element from above. -/
theorem jsMaxQ_ge (l : List ℚ) (x : ℚ) (hx : x ∈ l) : x ≤ jsMaxQ l := by
  cases l with
  | nil => exact absurd hx (List.not_mem_nil x)
  | cons a as => exact foldl_max_ge as a x hx

theorem foldl_min_map_add (as : List ℚ) :
    ∀ a c : ℚ, (as.map fun v => v + c).foldl min (a + c) = as.foldl min a + c := by
  induction as with
  | nil => intro a c; simp
  | cons b bs ih =>
    intro a c
    simp only [List.map, List.foldl]
    rw [min_add_add_right, ih]

/-- Translating every entry translates the emulated `Math.min`. -/
theorem jsMinQ_map_add (l : List ℚ) (c : ℚ) (h : l ≠ []) :
    jsMinQ (l.map fun v => v + c) = jsMinQ l + c := by
  cases l with
  | nil => exact absurd rfl h
  | cons a as =>
    show (as.map fun v => v + c).foldl min (a + c) = as.foldl min a + c
    exact foldl_min_map_add as a c

/-- The bounds-and-shift stage of the layout pass: after the shift every
node's box (including box extents) lies inside
`[padding, bounds.maxX] × [padding, bounds.maxY]`, and the minimum
occupied coordinate — the node anchor `x` (left edge of the connector
marker) on the horizontal axis, the box top `y − boxH/2` on the
vertical axis — equals exactly `padding` on each axis. -/
theorem finishLayout_bounds (measure : String → ℚ) (sx pad : ℚ) (X : Finset String)
    (pres : List PrePos) (edges : List (String × String))
    (hne : pres ≠ []) (hpad : 0 ≤ pad) :
    (∀ nd ∈ (finishLayout measure sx pad X pres edges).nodes,
        pad ≤ nd.x + CONNECTOR_RADIUS
        ∧ nd.x + CONNECTOR_RADIUS + nd.boxW
            ≤ (finishLayout measure sx pad X pres edges).bounds.maxX
        ∧ pad ≤ nd.y - nd.boxH / 2
        ∧ nd.y + nd.boxH / 2 ≤ (finishLayout measure sx pad X pres edges).bounds.maxY)
    ∧ jsMinQ ((finishLayout measure sx pad X pres edges).nodes.map fun nd => nd.x) = pad
    ∧ jsMinQ ((finishLayout measure sx pad X pres edges).nodes.map
        fun nd => nd.y - nd.boxH / 2) = pad := by
  have hn0 : pres.map (mkPNode measure sx X) ≠ [] := by
    intro hc
    exact hne (List.map_eq_nil_iff.1 hc)
  have hLnodes : (finishLayout measure sx pad X pres edges).nodes
      = (pres.map (mkPNode measure sx X)).map (fun n =>
          { n with
            x := n.x + (pad - jsMinQ ((pres.map (mkPNode measure sx X)).map fun n => n.x)),
            y := n.y + (pad - jsMinQ ((pres.map (mkPNode measure sx X)).map
                  fun n => n.y - n.boxH / 2)) }) := rfl
  have hLbounds : (finishLayout measure sx pad X pres edges).bounds
      = ⟨jsMaxQ ((pres.map (mkPNode measure sx X)).map fun n => n.x + n.boxW + 40)
            + (pad - jsMinQ ((pres.map (mkPNode measure sx X)).map fun n => n.x)) + pad,
          jsMaxQ ((pres.map (mkPNode measure sx X)).map fun n => n.y + n.boxH / 2)
            + (pad - jsMinQ ((pres.map (mkPNode measure sx X)).map
                fun n => n.y - n.boxH / 2)) + pad⟩ := rfl
  refine ⟨?_, ?_, ?_⟩
  · intro nd hnd
    rw [hLnodes] at hnd
    obtain ⟨n0, hn0mem, rfl⟩ := List.mem_map.1 hnd
    rw [hLbounds]
    have hminx := jsMinQ_le _ n0.x (List.mem_map_of_mem (fun n => n.x) hn0mem)
    have hmaxx := jsMaxQ_ge _ (n0.x + n0.boxW + 40)
      (List.mem_map_of_mem (fun n => n.x + n.boxW + 40) hn0mem)
    have hminy := jsMinQ_le _ (n0.y - n0.boxH / 2)
      (List.mem_map_of_mem (fun n => n.y - n.boxH / 2) hn0mem)
    have hmaxy := jsMaxQ_ge _ (n0.y + n0.boxH / 2)
      (List.mem_map_of_mem (fun n => n.y + n.boxH / 2) hn0mem)
    refine ⟨?_, ?_, ?_, ?_⟩
    · show pad ≤ n0.x + _ + CONNECTOR_RADIUS
      rw [CONNECTOR_RADIUS]
      linarith
    · show n0.x + _ + CONNECTOR_RADIUS + n0.boxW ≤ _
      rw [CONNECTOR_RADIUS]
      linarith
    · show pad ≤ n0.y + _ - n0.boxH / 2
      linarith
    · show n0.y + _ + n0.boxH / 2 ≤ _
      linarith
  · rw [hLnodes, List.map_map]
    have h1 : ((pres.map (mkPNode measure sx X)).map
          ((fun nd : PNode => nd.x) ∘ (fun n : PNode =>
            { n with
              x := n.x + (pad - jsMinQ ((pres.map (mkPNode measure sx X)).map
                    fun n : PNode => n.x)),
              y := n.y + (pad - jsMinQ ((pres.map (mkPNode measure sx X)).map
                    fun n : PNode => n.y - n.boxH / 2)) })))
        = ((pres.map (mkPNode measure sx X)).map fun n : PNode => n.x).map
            (fun v => v + (pad - jsMinQ ((pres.map (mkPNode measure sx X)).map
                fun n : PNode => n.x))) := by
      simp only [List.map_map]
      exact List.map_congr_left fun a _ => rfl
    rw [h1, jsMinQ_map_add _ _ (by
      intro hc
      exact hn0 (List.map_eq_nil_iff.1 hc))]
    ring
  · rw [hLnodes, List.map_map]
    have h1 : ((pres.map (mkPNode measure sx X)).map
          ((fun nd : PNode => nd.y - nd.boxH / 2) ∘ (fun n : PNode =>
            { n with
              x := n.x + (pad - jsMinQ ((pres.map (mkPNode measure sx X)).map
                    fun n : PNode => n.x)),
              y := n.y + (pad - jsMinQ ((pres.map (mkPNode measure sx X)).map
                    fun n : PNode => n.y - n.boxH / 2)) })))
        = ((pres.map (mkPNode measure sx X)).map fun n : PNode => n.y - n.boxH / 2).map
            (fun v => v + (pad - jsMinQ ((pres.map (mkPNode measure sx X)).map
                fun n : PNode => n.y - n.boxH / 2))) := by
      simp only [List.map_map]
      refine List.map_congr_left fun a _ => ?_
      dsimp only [Function.comp]
      ring
    rw [h1, jsMinQ_map_add _ _ (by
      intro hc
      exact hn0 (List.map_eq_nil_iff.1 hc))]
    ring

/-- Claim C7: with nonnegative padding, after the bounds shift every
positioned node's box (accounting for box extents) lies within
`[padding, bounds.maxX] × [padding, bounds.maxY]`, and the minimum
coordinate occupied by any node equals exactly `padding` on each axis
(horizontally the node anchor `x`, the left edge of its connector
marker; vertically the box top `y − boxH/2`). -/
theorem C7_bounds_shift (measure : String → ℚ) (sx sy pad : ℚ)
    (X : Finset String) (v : TNode) (hpad : 0 ≤ pad) :
    (∀ nd ∈ (layoutPass measure sx sy pad X v).nodes,
        pad ≤ nd.x + CONNECTOR_RADIUS
        ∧ nd.x + CONNECTOR_RADIUS + nd.boxW
            ≤ (layoutPass measure sx sy pad X v).bounds.maxX
        ∧ pad ≤ nd.y - nd.boxH / 2
        ∧ nd.y + nd.boxH / 2 ≤ (layoutPass measure sx sy pad X v).bounds.maxY)
    ∧ jsMinQ ((layoutPass measure sx sy pad X v).nodes.map fun nd => nd.x) = pad
    ∧ jsMinQ ((layoutPass measure sx sy pad X v).nodes.map
        fun nd => nd.y - nd.boxH / 2) = pad := by
  have hne : flattenO 0 (placeNode sy v 0).1 ≠ [] := by
    cases h : (placeNode sy v 0).1 with
    | mk i l o cs => simp [flattenO]
  exact finishLayout_bounds measure sx pad X (flattenO 0 (placeNode sy v 0).1)
    (edgesO (placeNode sy v 0).1) hne hpad

/-- Claim C7 witness: the concrete two-node layout with padding 80. -/
theorem C7_bounds_shift_witness :
    (∀ nd ∈ (layoutPass defaultMeasure 380 140 80
        (expandableIds (.mk "r" "r" (.cons (.mk "a" "A" .nil) .nil)))
        (buildVisibleTree {"r"} (.mk "r" "r" (.cons (.mk "a" "A" .nil) .nil)))).nodes,
        (80 : ℚ) ≤ nd.x + CONNECTOR_RADIUS
        ∧ nd.x + CONNECTOR_RADIUS + nd.boxW
            ≤ (layoutPass defaultMeasure 380 140 80
                (expandableIds (.mk "r" "r" (.cons (.mk "a" "A" .nil) .nil)))
                (buildVisibleTree {"r"}
                  (.mk "r" "r" (.cons (.mk "a" "A" .nil) .nil)))).bounds.maxX
        ∧ (80 : ℚ) ≤ nd.y - nd.boxH / 2
        ∧ nd.y + nd.boxH / 2
            ≤ (layoutPass defaultMeasure 380 140 80
                (expandableIds (.mk "r" "r" (.cons (.mk "a" "A" .nil) .nil)))
                (buildVisibleTree {"r"}
                  (.mk "r" "r" (.cons (.mk "a" "A" .nil) .nil)))).bounds.maxY)
    ∧ jsMinQ ((layoutPass defaultMeasure 380 140 80
        (expandableIds (.mk "r" "r" (.cons (.mk "a" "A" .nil) .nil)))
        (buildVisibleTree {"r"} (.mk "r" "r" (.cons (.mk "a" "A" .nil) .nil)))).nodes.map
          fun nd => nd.x) = 80
    ∧ jsMinQ ((layoutPass defaultMeasure 380 140 80
        (expandableIds (.mk "r" "r" (.cons (.mk "a" "A" .nil) .nil)))
        (buildVisibleTree {"r"} (.mk "r" "r" (.cons (.mk "a" "A" .nil) .nil)))).nodes.map
          fun nd => nd.y - nd.boxH / 2) = 80 :=
  C7_bounds_shift defaultMeasure 380 140 80
    (expandableIds (.mk "r" "r" (.cons (.mk "a" "A" .nil) .nil)))
    (buildVisibleTree {"r"} (.mk "r" "r" (.cons (.mk "a" "A" .nil) .nil)))
    (by norm_num)

/-- The order positions of a placed list are the first components of
its (order, label) data. -/
theorem topOrders_eq_map_fst (os : OList) :
    topOrders os = (topInfo os).map Prod.fst := by
  refine @OList.rec (fun _ => True)
    (fun os => topOrders os = (topInfo os).map Prod.fst)
    (fun _ _ _ _ _ => trivial) ?_ ?_ os
  · simp [topOrders, topInfo]
  · intro o os _ ih
    cases o with
    | mk i l ord cs => simp [topOrders, topInfo, OTree.order, ih]

/-- Every ordered pair drawn from a pairwise-related list is related. -/
theorem pairsOf_of_pairwise {α : Type} (R : α → α → Prop) (l : List α)
    (h : l.Pairwise R) : ∀ pr ∈ pairsOf l, R pr.1 pr.2 := by
  induction l with
  | nil => intro pr hpr; simp [pairsOf] at hpr
  | cons x xs ih =>
    intro pr hpr
    rw [List.pairwise_cons] at h
    simp only [pairsOf, List.mem_append, List.mem_map] at hpr
    rcases hpr with ⟨y, hy, rfl⟩ | hpr
    · exact h.1 y hy
    · exact ih h.2 pr hpr

/-- The first order position belongs to the top-level order list. -/
theorem firstOrder_mem (os : OList) (h : os ≠ .onil) :
    OList.firstOrder os ∈ topOrders os := by
  cases os with
  | onil => exact absurd rfl h
  | ocons o os' => simp [OList.firstOrder, topOrders]

/-- The last order position belongs to the top-level order list. -/
theorem lastOrder_mem (os : OList) (h : os ≠ .onil) :
    OList.lastOrder os ∈ topOrders os := by
  refine @OList.rec (fun _ => True)
    (fun os => os ≠ .onil → OList.lastOrder os ∈ topOrders os)
    (fun _ _ _ _ _ => trivial) ?_ ?_ os h
  · intro hc
    exact absurd rfl hc
  · intro o os' _ ih _
    cases os' with
    | onil => simp [OList.lastOrder, topOrders]
    | ocons o2 os'' =>
      have := ih (by intro hc; cases hc)
      simp only [OList.lastOrder, topOrders, List.mem_cons]
      right
      simpa [topOrders] using this

/-- The separation invariant of the spec-modelled placement, list
version: the cursor never retreats, every top-level child's order
position lies within the window `[cur, cur' − gap]`, and the top-level
children are pairwise at least `gap` apart in input order. -/
theorem place_sep_list (gap : ℚ) (hg : 0 ≤ gap) (ts : TList) :
    ∀ cur : ℚ, cur ≤ (placeList gap ts cur).2
      ∧ (∀ o ∈ topOrders (placeList gap ts cur).1,
          cur ≤ o ∧ o ≤ (placeList gap ts cur).2 - gap)
      ∧ (topOrders (placeList gap ts cur).1).Pairwise fun a b => a + gap ≤ b := by
  refine @TList.rec
    (fun t => ∀ cur : ℚ, cur + gap ≤ (placeNode gap t cur).2
      ∧ cur ≤ (placeNode gap t cur).1.order
      ∧ (placeNode gap t cur).1.order ≤ (placeNode gap t cur).2 - gap)
    (fun ts => ∀ cur : ℚ, cur ≤ (placeList gap ts cur).2
      ∧ (∀ o ∈ topOrders (placeList gap ts cur).1,
          cur ≤ o ∧ o ≤ (placeList gap ts cur).2 - gap)
      ∧ (topOrders (placeList gap ts cur).1).Pairwise fun a b => a + gap ≤ b)
    ?_ ?_ ?_ ts
  · intro i l cs ih cur
    cases cs with
    | nil =>
      simp only [placeNode, OTree.order]
      exact ⟨le_refl _, le_refl _, by linarith⟩
    | cons c cs' =>
      obtain ⟨h1, h2, h3⟩ := ih cur
      have hnn : (placeList gap (.cons c cs') cur).1 ≠ .onil := by
        show OList.ocons _ _ ≠ .onil
        intro hc
        cases hc
      have hfo := h2 _ (firstOrder_mem _ hnn)
      have hlo := h2 _ (lastOrder_mem _ hnn)
      simp only [placeNode, OTree.order]
      exact ⟨by linarith [hfo.1, hfo.2], by linarith [hfo.1, hlo.1],
        by linarith [hfo.2, hlo.2]⟩
  · intro cur
    simp only [placeList, topOrders]
    exact ⟨le_refl _, by simp, List.Pairwise.nil⟩
  · intro t ts' iht ihts cur
    obtain ⟨hp1, hp2, hp3⟩ := iht cur
    obtain ⟨hq1, hq2, hq3⟩ := ihts (placeNode gap t cur).2
    simp only [placeList, topOrders]
    refine ⟨by linarith, ?_, ?_⟩
    · intro o ho
      rcases List.mem_cons.1 ho with rfl | ho'
      · exact ⟨hp2, by linarith⟩
      · have := hq2 o ho'
        exact ⟨by linarith [this.1], this.2⟩
    · rw [List.pairwise_cons]
      refine ⟨fun o ho => ?_, hq3⟩
      have := hq2 o ho
      linarith [this.1]

/-- The separation invariant, node version: the cursor advances by at
least `gap` past a subtree, whose order position lies in its window. -/
theorem place_sep (gap : ℚ) (hg : 0 ≤ gap) (t : TNode) (cur : ℚ) :
    cur + gap ≤ (placeNode gap t cur).2
    ∧ cur ≤ (placeNode gap t cur).1.order
    ∧ (placeNode gap t cur).1.order ≤ (placeNode gap t cur).2 - gap := by
  have h := (place_sep_list gap hg (.cons t .nil) cur).2.1
  have hm : (placeNode gap t cur).1.order
      ∈ topOrders (placeList gap (.cons t .nil) cur).1 := by
    show _ ∈ (placeNode gap t cur).1.order :: _
    exact List.mem_cons_self _ _
  have h2 := h _ hm
  have hq : (placeList gap (.cons t .nil) cur).2 = (placeNode gap t cur).2 := rfl
  rw [hq] at h2
  exact ⟨by linarith [h2.1, h2.2], h2.1, h2.2⟩

/-- Distinct siblings of a placed tree are at least `gap` apart on the
order axis, in input order. -/
theorem place_sibPairs (gap : ℚ) (hg : 0 ≤ gap) (t : TNode) :
    ∀ cur : ℚ, ∀ pr ∈ allSibPairs (placeNode gap t cur).1,
      pr.1.1 + gap ≤ pr.2.1 := by
  refine @TNode.rec
    (fun t => ∀ cur : ℚ, ∀ pr ∈ allSibPairs (placeNode gap t cur).1,
      pr.1.1 + gap ≤ pr.2.1)
    (fun ts => ∀ cur : ℚ, ∀ pr ∈ allSibPairsL (placeList gap ts cur).1,
      pr.1.1 + gap ≤ pr.2.1)
    ?_ ?_ ?_ t
  · intro i l cs ih cur pr hpr
    cases cs with
    | nil =>
      simp [placeNode, allSibPairs, allSibPairsL, topInfo, pairsOf] at hpr
    | cons c cs' =>
      have hshape : allSibPairs (placeNode gap (.mk i l (.cons c cs')) cur).1
          = pairsOf (topInfo (placeList gap (.cons c cs') cur).1)
            ++ allSibPairsL (placeList gap (.cons c cs') cur).1 := rfl
      rw [hshape, List.mem_append] at hpr
      rcases hpr with hpr | hpr
      · have hpw := (place_sep_list gap hg (.cons c cs') cur).2.2
        rw [topOrders_eq_map_fst, List.pairwise_map] at hpw
        exact pairsOf_of_pairwise _ _ hpw pr hpr
      · exact ih cur pr hpr
  · intro cur pr hpr
    simp [placeList, allSibPairsL] at hpr
  · intro t ts iht ihts cur pr hpr
    simp only [placeList, allSibPairsL, List.mem_append] at hpr
    rcases hpr with hpr | hpr
    · exact iht cur pr hpr
    · exact ihts (placeNode gap t cur).2 pr hpr

/-- Claim C3 (amended): sibling anchors come from the fixed sibling
spacing, not from box heights — in every layout pass two distinct
siblings' order-axis positions differ by at least `siblingGap`, and
their boxes' vertical spans are disjoint whenever the two box heights
sum to less than `2 × siblingGap`; taller wrapped labels can overlap
(see the counterexample).  The layout's `(y, boxH)` data is exactly the
placed `(order, boxH)` data translated by one uniform shift, so the
span statement transfers verbatim to the emitted coordinates. -/
theorem C3_sibling_spans (measure : String → ℚ) (sx gap pad : ℚ)
    (X : Finset String) (v : TNode) (hg : 0 ≤ gap) :
    (∃ s : ℚ, (layoutPass measure sx gap pad X v).nodes.map (fun nd => (nd.y, nd.boxH))
        = (flattenO 0 (placeNode gap v 0).1).map
            fun p => (p.order + s, boxHOf measure p.label))
    ∧ ∀ pr ∈ allSibPairs (placeNode gap v 0).1,
        pr.1.1 + gap ≤ pr.2.1
        ∧ (boxHOf measure pr.1.2 + boxHOf measure pr.2.2 < 2 * gap →
            pr.1.1 + boxHOf measure pr.1.2 / 2 < pr.2.1 - boxHOf measure pr.2.2 / 2) := by
  constructor
  · refine ⟨pad - jsMinQ (((flattenO 0 (placeNode gap v 0).1).map
        (mkPNode measure sx X)).map fun n => n.y - n.boxH / 2), ?_⟩
    show (((flattenO 0 (placeNode gap v 0).1).map (mkPNode measure sx X)).map _).map _ = _
    rw [List.map_map, List.map_map]
    exact List.map_congr_left fun a _ => rfl
  · intro pr hpr
    have hsep := place_sibPairs gap hg v 0 pr hpr
    exact ⟨hsep, fun hh => by linarith⟩

/-- Claim C3 witness: in the two-leaf layout the siblings `a`, `b`
(boxes of height 56 each, gap 140) have disjoint spans. -/
theorem C3_sibling_spans_witness :
    (∃ s : ℚ, (layoutPass defaultMeasure 380 140 80
          (expandableIds (.mk "r" "r" (.cons (.mk "a" "A" .nil) (.cons (.mk "b" "B" .nil) .nil))))
          (buildVisibleTree {"r"}
            (.mk "r" "r" (.cons (.mk "a" "A" .nil) (.cons (.mk "b" "B" .nil) .nil))))).nodes.map
            (fun nd => (nd.y, nd.boxH))
        = (flattenO 0 (placeNode 140 (buildVisibleTree {"r"}
            (.mk "r" "r" (.cons (.mk "a" "A" .nil) (.cons (.mk "b" "B" .nil) .nil)))) 0).1).map
            fun p => (p.order + s, boxHOf defaultMeasure p.label))
    ∧ ∀ pr ∈ allSibPairs (placeNode 140 (buildVisibleTree {"r"}
          (.mk "r" "r" (.cons (.mk "a" "A" .nil) (.cons (.mk "b" "B" .nil) .nil)))) 0).1,
        pr.1.1 + 140 ≤ pr.2.1
        ∧ (boxHOf defaultMeasure pr.1.2 + boxHOf defaultMeasure pr.2.2 < 2 * 140 →
            pr.1.1 + boxHOf defaultMeasure pr.1.2 / 2
              < pr.2.1 - boxHOf defaultMeasure pr.2.2 / 2) :=
  C3_sibling_spans defaultMeasure 380 140 80
    (expandableIds (.mk "r" "r" (.cons (.mk "a" "A" .nil) (.cons (.mk "b" "B" .nil) .nil))))
    (buildVisibleTree {"r"}
      (.mk "r" "r" (.cons (.mk "a" "A" .nil) (.cons (.mk "b" "B" .nil) .nil))))
    (by norm_num)

/-- Claim C3 counterexample: with the default sibling gap 140 and a
character-width measure of 100 units, the label `"aa aa aa aa aa aa"`
wraps to 6 lines (box height 156), so the two sibling leaves `a`, `b`
of the expanded root sit 140 apart with spans `[80, 236]` and
`[220, 376]` — their vertical spans overlap, refuting the claim for
this visible tree with ≥ 2 children at one node. -/
theorem C3_sibling_spans_cex :
    (layoutPass (fun s => 100 * (s.length : ℚ)) 380 140 80
        (expandableIds (.mk "r" "r" (.cons (.mk "a" "aa aa aa aa aa aa" .nil)
          (.cons (.mk "b" "aa aa aa aa aa aa" .nil) .nil))))
        (buildVisibleTree {"r"} (.mk "r" "r" (.cons (.mk "a" "aa aa aa aa aa aa" .nil)
          (.cons (.mk "b" "aa aa aa aa aa aa" .nil) .nil))))).nodes.map
        (fun nd => (nd.id, nd.y, nd.boxH))
      = [("r", 228, 56), ("a", 158, 156), ("b", 298, 156)]
    ∧ allSibPairs (placeNode 140 (buildVisibleTree {"r"}
        (.mk "r" "r" (.cons (.mk "a" "aa aa aa aa aa aa" .nil)
          (.cons (.mk "b" "aa aa aa aa aa aa" .nil) .nil))) ) 0).1
      = [((0, "aa aa aa aa aa aa"), (140, "aa aa aa aa aa aa"))]
    ∧ ((298 : ℚ) - 156 / 2 < 158 + 156 / 2 ∧ (158 : ℚ) - 156 / 2 < 298 + 156 / 2) := by
  have hsplit : jsSplitSpace "aa aa aa aa aa aa"
      = ["aa", "aa", "aa", "aa", "aa", "aa"] := by decide
  have hlen5 : ("aa" ++ " " ++ "aa" : String).length = 5 := by decide
  have hbr : (260 : ℚ) < (fun s => 100 * (s.length : ℚ)) ("aa" ++ " " ++ "aa") := by
    show (260 : ℚ) < 100 * ((("aa" ++ " " ++ "aa" : String)).length : ℚ)
    rw [hlen5]
    norm_num
  have hw_ab : wrapText (fun s => 100 * (s.length : ℚ)) 260 "aa aa aa aa aa aa"
      = ["aa", "aa", "aa", "aa", "aa", "aa"] := by
    show wrapLoop _ 260 (jsSplitSpace "aa aa aa aa aa aa") "" = _
    rw [hsplit, wrapLoop_cons_empty]
    rw [wrapLoop_cons_break _ _ _ _ _ (by decide) hbr]
    rw [wrapLoop_cons_break _ _ _ _ _ (by decide) hbr]
    rw [wrapLoop_cons_break _ _ _ _ _ (by decide) hbr]
    rw [wrapLoop_cons_break _ _ _ _ _ (by decide) hbr]
    rw [wrapLoop_cons_break _ _ _ _ _ (by decide) hbr]
    rw [wrapLoop]
    simp
  have hw_r : wrapText (fun s => 100 * (s.length : ℚ)) 260 "r" = ["r"] := by
    show wrapLoop _ 260 (jsSplitSpace "r") "" = _
    rw [show jsSplitSpace "r" = ["r"] from by decide, wrapLoop_cons_empty, wrapLoop]
    simp
  have hx1 : "r" ∈ expandableIds (TNode.mk "r" "r" (.cons (.mk "a" "aa aa aa aa aa aa" .nil)
      (.cons (.mk "b" "aa aa aa aa aa aa" .nil) .nil))) := by decide
  have hx2 : ¬ "a" ∈ expandableIds (TNode.mk "r" "r" (.cons (.mk "a" "aa aa aa aa aa aa" .nil)
      (.cons (.mk "b" "aa aa aa aa aa aa" .nil) .nil))) := by decide
  have hx3 : ¬ "b" ∈ expandableIds (TNode.mk "r" "r" (.cons (.mk "a" "aa aa aa aa aa aa" .nil)
      (.cons (.mk "b" "aa aa aa aa aa aa" .nil) .nil))) := by decide
  have hv : buildVisibleTree {"r"} (TNode.mk "r" "r" (.cons (.mk "a" "aa aa aa aa aa aa" .nil)
        (.cons (.mk "b" "aa aa aa aa aa aa" .nil) .nil)))
      = TNode.mk "r" "r" (.cons (.mk "a" "aa aa aa aa aa aa" .nil)
        (.cons (.mk "b" "aa aa aa aa aa aa" .nil) .nil)) := by decide
  rw [hv]
  refine ⟨?_, ?_, by norm_num, by norm_num⟩
  · simp only [layoutPass, finishLayout, placeNode, placeList, flattenO, flattenOL,
      mkPNode, jsMinQ, jsMaxQ, OList.firstOrder, OList.lastOrder, OTree.order,
      LINE_HEIGHT, MAX_TEXT_WIDTH, PADDING_X, PADDING_Y, CONNECTOR_RADIUS,
      hw_r, hw_ab, hx1, hx2, hx3, List.map, List.foldl, List.length,
      decide_True, decide_False, not_false_eq_true, eq_self_iff_true,
      if_true, if_false, String.reduceEq]
    norm_num
  · simp only [placeNode, placeList, allSibPairs, allSibPairsL, topInfo, pairsOf,
      OTree.order, OList.firstOrder, OList.lastOrder, List.map, List.append,
      List.cons_append, List.nil_append]
    norm_num

end MindMap
